import Mathlib

/-!
Shallow embedding of the PageRank analyser repository.

The repository has three algorithm files:
* `page_rank.py` — plain-dict variant (namespace `PageRank`);
* `page_rank_optimisation.py` — defaultdict variant (namespace `PageRankOpt`);
* `page_rank_2.py` — networkx variant (namespace `PageRank2`).

A Python `dict` preserving insertion order is embedded as an association
list with the insertion order preserved; `dict[k]` access that can raise a
`KeyError` is embedded as an `Option`-returning lookup, and functions whose
Python originals can raise are embedded with `Option`/`Except` results.
Python floats are idealised as rationals `ℚ`.  The `Progress` bar of
`progress.py` only writes to stdout and never affects the algorithm state,
so it is omitted from the embedding.
-/

/-- Node identifiers are opaque strings (URLs). -/
abbrev Node := String

/-- Embedding of the graph dict of `page_rank.py`: an insertion-ordered
mapping from a source node to its list of targets (with multiplicity). -/
abbrev Graph := List (Node × List Node)

/-- Insertion-ordered dictionary with `Node` keys. -/
abbrev Dict (α : Type) := List (Node × α)

/-- Embedding of Python dict lookup `d[k]` (first entry with key `k`);
`none` models a `KeyError`. -/
def dget (k : Node) : Dict α → Option α
  | [] => none
  | (k1, v) :: rest => if k1 = k then some v else dget k rest

/-- The key list of a dict, in insertion order (Python `list(d.keys())`). -/
def dkeys (d : Dict α) : List Node := d.map Prod.fst

/-- Embedding of `d[k] += p` on a rational-valued dict: fails with `none`
(a Python `KeyError`) when `k` is not a key. -/
def dincrQ (d : Dict ℚ) (k : Node) (p : ℚ) : Option (Dict ℚ) :=
  match d with
  | [] => none
  | (k1, v) :: rest =>
    if k1 = k then some ((k1, v + p) :: rest)
    else (dincrQ rest k p).map (fun r => (k1, v) :: r)

/-- Embedding of `d[k] += 1` on a nat-valued dict: fails with `none`
(a Python `KeyError`) when `k` is not a key. -/
def dincrN (d : Dict ℕ) (k : Node) : Option (Dict ℕ) :=
  match d with
  | [] => none
  | (k1, v) :: rest =>
    if k1 = k then some ((k1, v + 1) :: rest)
    else (dincrN rest k).map (fun r => (k1, v) :: r)

/-- Embedding of `d[k] += 1` on a `defaultdict(int)`: a missing key is
created with value `0` at the end of the dict and then incremented. -/
def dincrD (d : Dict ℕ) (k : Node) : Dict ℕ :=
  match d with
  | [] => [(k, 1)]
  | (k1, v) :: rest =>
    if k1 = k then (k1, v + 1) :: rest else (k1, v) :: dincrD rest k

/-- Total of a rational-valued dict (`sum(d.values())`). -/
def dictSum (d : Dict ℚ) : ℚ := (d.map Prod.snd).sum

/-- Total of a nat-valued dict (`sum(d.values())`). -/
def dictSumN (d : Dict ℕ) : ℕ := (d.map Prod.snd).sum

/-- Embedding of `random.choice(l)` fed by one draw `r` of the random
stream: picks index `r % len(l)`; `none` models the `IndexError` raised on
an empty sequence. -/
def choice (l : List α) (r : ℕ) : Option α := l.get? (r % l.length)

namespace PageRank

/-! Embedding of `page_rank.py`. -/

/-- Embedding of the body of `distribution_page_rank`'s inner loop
`for target in graph[node]: next_prob[target] += p`: adds `p` to each
target's entry in turn; `none` models the `KeyError` raised when a target
is not a key of `next_prob`. -/
def addToTargets (p : ℚ) : List Node → Dict ℚ → Option (Dict ℚ)
  | [], next => some next
  | t :: ts, next =>
    match dincrQ next t p with
    | none => none
    | some next1 => addToTargets p ts next1

/-- Embedding of `for node in graph: if len(graph[node]) > 0: ...` —
one pass of the distribution step over the remaining graph entries,
accumulating into `next`. -/
def distLoop (np : Dict ℚ) : Graph → Dict ℚ → Option (Dict ℚ)
  | [], next => some next
  | (node, ts) :: rest, next =>
    if 0 < ts.length then
      match dget node np with
      | none => none
      | some v =>
        match addToTargets (v / (ts.length : ℚ)) ts next with
        | none => none
        | some next1 => distLoop np rest next1
    else distLoop np rest next

/-- Embedding of `next_prob = {node: 0 for node in graph}`. -/
def zeroDict (g : Graph) : Dict ℚ := g.map (fun e => (e.1, (0 : ℚ)))

/-- One iteration of the distribution estimator's outer loop. -/
def distStep (g : Graph) (np : Dict ℚ) : Option (Dict ℚ) := distLoop np g (zeroDict g)

/-- Embedding of `node_prob = {node: 1 / nodes for node in graph}` where
`nodes = len(graph.keys())`. -/
def initProb (g : Graph) : Dict ℚ := g.map (fun e => (e.1, 1 / (g.length : ℚ)))

/-- Embedding of `for x in range(args.steps): ... node_prob = next_prob`. -/
def distIter (g : Graph) : ℕ → Dict ℚ → Option (Dict ℚ)
  | 0, np => some np
  | n + 1, np =>
    match distStep g np with
    | none => none
    | some np1 => distIter g n np1

/-- Embedding of `distribution_page_rank(graph, args)` of `page_rank.py`
with `steps = args.steps`; `none` models an uncaught `KeyError`. -/
def distribution_page_rank (g : Graph) (steps : ℕ) : Option (Dict ℚ) :=
  distIter g steps (initProb g)

end PageRank

/-! Basic dictionary lemmas. -/

/-- Values of a dict are all non-negative. -/
def nonnegD (d : Dict ℚ) : Prop := ∀ x ∈ d.map Prod.snd, 0 ≤ x

theorem dget_eq_some_of_mem {d : Dict α} {k : Node} (h : k ∈ dkeys d) :
    ∃ v, dget k d = some v := by
  induction d with
  | nil => simp [dkeys] at h
  | cons e rest ih =>
    obtain ⟨k1, v⟩ := e
    by_cases hk : k1 = k
    · exact ⟨v, by simp [dget, hk]⟩
    · have : k ∈ dkeys rest := by
        simp [dkeys] at h ⊢
        rcases h with h | h
        · exact absurd h.symm hk
        · exact h
      obtain ⟨w, hw⟩ := ih this
      exact ⟨w, by simp [dget, hk, hw]⟩

theorem dget_mem_values {d : Dict α} {k : Node} {v : α} (h : dget k d = some v) :
    v ∈ d.map Prod.snd := by
  induction d with
  | nil => simp [dget] at h
  | cons e rest ih =>
    obtain ⟨k1, w⟩ := e
    by_cases hk : k1 = k
    · simp [dget, hk] at h
      simp [h]
    · simp [dget, hk] at h
      simp [ih h]

theorem dget_getD_nonneg {np : Dict ℚ} (hnn : nonnegD np) (n : Node) :
    0 ≤ (dget n np).getD 0 := by
  cases h : dget n np with
  | none => simp
  | some v => simpa using hnn v (dget_mem_values h)

/-- Specification of `dincrQ` on a present key: it succeeds, keeps the key
list, adds `p` to the total, and preserves non-negativity for `0 ≤ p`. -/
theorem dincrQ_spec (d : Dict ℚ) (k : Node) (p : ℚ) (h : k ∈ dkeys d) :
    ∃ d1, dincrQ d k p = some d1 ∧ dkeys d1 = dkeys d ∧
      dictSum d1 = dictSum d + p ∧ (nonnegD d → 0 ≤ p → nonnegD d1) := by
  induction d with
  | nil => simp [dkeys] at h
  | cons e rest ih =>
    obtain ⟨k1, v⟩ := e
    by_cases hk : k1 = k
    · refine ⟨(k1, v + p) :: rest, by simp [dincrQ, hk], by simp [dkeys], ?_, ?_⟩
      · simp [dictSum]; ring
      · intro hnn hp x hx
        simp at hx
        rcases hx with hx | hx
        · have hv : 0 ≤ v := hnn v (by simp)
          simp [hx]; linarith
        · exact hnn x (by simp [hx])
    · have hmem : k ∈ dkeys rest := by
        simp [dkeys] at h ⊢
        rcases h with h | h
        · exact absurd h.symm hk
        · exact h
      obtain ⟨r, hr, hkeys, hsum, hnn⟩ := ih hmem
      refine ⟨(k1, v) :: r, by simp [dincrQ, hk, hr], by simp only [dkeys] at hkeys ⊢; simp [hkeys], ?_, ?_⟩
      · simp [dictSum] at hsum ⊢
        rw [hsum]; ring
      · intro hd hp x hx
        simp at hx
        rcases hx with hx | hx
        · exact hx ▸ hd v (by simp)
        · exact hnn (fun y hy => hd y (by simp at hy ⊢; tauto)) hp x (by simp [hx])

namespace PageRank

/-- Specification of the inner target loop when every target is a key of
the accumulator: it succeeds, keeps the key list, adds `p * len(targets)`
to the total, and preserves non-negativity for `0 ≤ p`. -/
theorem addToTargets_spec (ts : List Node) (p : ℚ) (next : Dict ℚ)
    (h : ∀ t ∈ ts, t ∈ dkeys next) :
    ∃ n1, addToTargets p ts next = some n1 ∧ dkeys n1 = dkeys next ∧
      dictSum n1 = dictSum next + p * ts.length ∧
      (nonnegD next → 0 ≤ p → nonnegD n1) := by
  induction ts generalizing next with
  | nil => exact ⟨next, rfl, rfl, by simp, fun h _ => h⟩
  | cons t ts ih =>
    obtain ⟨d1, hd1, hk1, hs1, hn1⟩ :=
      dincrQ_spec next t p (h t (by simp))
    obtain ⟨n1, hn, hk, hs, hnn⟩ :=
      ih d1 (fun u hu => hk1 ▸ h u (by simp [hu]))
    refine ⟨n1, ?_, hk.trans hk1, ?_, ?_⟩
    · simp [addToTargets, hd1, hn]
    · rw [hs, hs1, List.length_cons]; push_cast; ring
    · exact fun h0 hp => hnn (hn1 h0 hp) hp

/-- The probability mass that one pass of `distLoop` over the given
entries distributes: the current probability of every entry whose target
list is non-empty; entries without outgoing edges contribute nothing. -/
def massOf (np : Dict ℚ) : Graph → ℚ
  | [] => 0
  | (n, ts) :: rest =>
    (if 0 < ts.length then (dget n np).getD 0 else 0) + massOf np rest

/-- Specification of `distLoop`: under closedness of the targets in the
accumulator's keys and presence of the sources in `np`, it succeeds, keeps
the key list, and adds exactly `massOf np entries` to the total. -/
theorem distLoop_spec (np : Dict ℚ) (hnp : nonnegD np) (entries : Graph) :
    ∀ next : Dict ℚ, (∀ e ∈ entries, ∀ t ∈ e.2, t ∈ dkeys next) →
    (∀ e ∈ entries, e.1 ∈ dkeys np) →
    ∃ n1, distLoop np entries next = some n1 ∧ dkeys n1 = dkeys next ∧
      dictSum n1 = dictSum next + massOf np entries ∧
      (nonnegD next → nonnegD n1) := by
  induction entries with
  | nil => exact fun next _ _ => ⟨next, rfl, rfl, by simp [massOf], fun h => h⟩
  | cons e rest ih =>
    intro next hts hn
    obtain ⟨node, ts⟩ := e
    by_cases hlen : 0 < ts.length
    · obtain ⟨v, hv⟩ := dget_eq_some_of_mem (hn (node, ts) (by simp))
      have hvnn : 0 ≤ v := hnp v (dget_mem_values hv)
      have hpnn : 0 ≤ v / (ts.length : ℚ) := by positivity
      obtain ⟨d1, hd1, hk1, hs1, hnn1⟩ :=
        addToTargets_spec ts (v / (ts.length : ℚ)) next
          (fun t ht => hts (node, ts) (by simp) t ht)
      obtain ⟨n1, hn1, hk, hs, hnn⟩ :=
        ih d1 (fun e he t ht => hk1 ▸ hts e (by simp [he]) t ht)
          (fun e he => hn e (by simp [he]))
      refine ⟨n1, ?_, hk.trans hk1, ?_, ?_⟩
      · simp [distLoop, hlen, hv, hd1, hn1]
      · rw [hs, hs1, massOf]
        have hl : (ts.length : ℚ) ≠ 0 := by positivity
        rw [div_mul_cancel₀ _ hl]
        simp [hlen, hv]
        ring
      · exact fun h0 => hnn (hnn1 h0 hpnn)
    · obtain ⟨n1, hn1, hk, hs, hnn⟩ :=
        ih next (fun e he t ht => hts e (by simp [he]) t ht)
          (fun e he => hn e (by simp [he]))
      refine ⟨n1, ?_, hk, ?_, hnn⟩
      · simp [distLoop, hlen, hn1]
      · rw [hs, massOf]; simp [hlen]

end PageRank

namespace PageRank

/-- The sum of the current probabilities of all entries of `entries`,
looked up in `np`. -/
def lookSum (np : Dict ℚ) : Graph → ℚ
  | [] => 0
  | (n, _) :: rest => (dget n np).getD 0 + lookSum np rest

theorem massOf_le_lookSum (np : Dict ℚ) (hnn : nonnegD np) (g : Graph) :
    massOf np g ≤ lookSum np g := by
  induction g with
  | nil => simp [massOf, lookSum]
  | cons e rest ih =>
    obtain ⟨n, ts⟩ := e
    rw [massOf, lookSum]
    have : (if 0 < ts.length then (dget n np).getD 0 else 0) ≤ (dget n np).getD 0 := by
      by_cases h : 0 < ts.length
      · simp [h]
      · simp [h]; exact dget_getD_nonneg hnn n
    exact add_le_add this ih

theorem massOf_eq_lookSum (np : Dict ℚ) (g : Graph) (hall : ∀ e ∈ g, e.2 ≠ []) :
    massOf np g = lookSum np g := by
  induction g with
  | nil => simp [massOf, lookSum]
  | cons e rest ih =>
    obtain ⟨n, ts⟩ := e
    have hts : 0 < ts.length :=
      List.length_pos.mpr (hall (n, ts) (by simp))
    rw [massOf, lookSum, if_pos hts, ih (fun e he => hall e (by simp [he]))]

theorem lookSum_cons_notmem (np : Dict ℚ) (n : Node) (v : ℚ) (g : Graph)
    (h : ∀ e ∈ g, e.1 ≠ n) : lookSum ((n, v) :: np) g = lookSum np g := by
  induction g with
  | nil => rfl
  | cons e rest ih =>
    obtain ⟨m, ts⟩ := e
    have hm : ¬(n = m) := fun he => h (m, ts) (by simp) (he ▸ rfl)
    rw [lookSum, lookSum, ih (fun e he => h e (by simp [he]))]
    simp [dget, hm]

theorem lookSum_eq_dictSum (g : Graph) :
    ∀ np : Dict ℚ, dkeys g = dkeys np → (dkeys np).Nodup →
    lookSum np g = dictSum np := by
  induction g with
  | nil =>
    intro np hk _
    have : np = [] := by
      cases np with
      | nil => rfl
      | cons e r => simp [dkeys] at hk
    simp [this, lookSum, dictSum]
  | cons e rest ih =>
    intro np hk hnd
    obtain ⟨n, ts⟩ := e
    cases np with
    | nil => simp [dkeys] at hk
    | cons e2 np2 =>
      obtain ⟨n2, v⟩ := e2
      simp only [dkeys, List.map_cons, List.cons.injEq] at hk
      obtain ⟨hn, hk2⟩ := hk
      subst hn
      simp only [dkeys, List.map_cons, List.nodup_cons] at hnd
      obtain ⟨hnmem, hnd2⟩ := hnd
      have hne : ∀ e ∈ rest, e.1 ≠ n := by
        intro e he hcontra
        exact hnmem (hk2 ▸ (hcontra ▸ List.mem_map_of_mem Prod.fst he))
      rw [lookSum, lookSum_cons_notmem np2 n v rest hne,
        ih np2 hk2 hnd2]
      simp [dget, dictSum]

theorem dkeys_zeroDict (g : Graph) : dkeys (zeroDict g) = dkeys g := by
  simp [zeroDict, dkeys]

theorem dictSum_zeroDict (g : Graph) : dictSum (zeroDict g) = 0 := by
  induction g with
  | nil => rfl
  | cons e rest ih => simpa [zeroDict, dictSum] using ih

theorem nonneg_zeroDict (g : Graph) : nonnegD (zeroDict g) := by
  intro x hx
  simp [zeroDict] at hx
  simp [hx]

/-- One distribution step on a closed well-formed graph: it succeeds, the
keys stay those of the graph, values stay non-negative, the total mass
does not increase, and it is conserved when every node has an edge. -/
theorem distStep_spec (g : Graph) (hwf : (dkeys g).Nodup)
    (hcl : ∀ e ∈ g, ∀ t ∈ e.2, t ∈ dkeys g)
    (np : Dict ℚ) (hk : dkeys np = dkeys g) (hnn : nonnegD np) :
    ∃ np1, distStep g np = some np1 ∧ dkeys np1 = dkeys g ∧ nonnegD np1 ∧
      dictSum np1 ≤ dictSum np ∧
      ((∀ e ∈ g, e.2 ≠ []) → dictSum np1 = dictSum np) := by
  obtain ⟨n1, hn1, hkeys, hsum, hnng⟩ :=
    distLoop_spec np hnn g (zeroDict g)
      (fun e he t ht => (dkeys_zeroDict g) ▸ hcl e he t ht)
      (fun e he => hk ▸ List.mem_map_of_mem Prod.fst he)
  have hlook : lookSum np g = dictSum np :=
    lookSum_eq_dictSum g np hk.symm (hk ▸ hwf)
  refine ⟨n1, hn1, hkeys.trans (dkeys_zeroDict g), hnng (nonneg_zeroDict g), ?_, ?_⟩
  · rw [hsum, dictSum_zeroDict, zero_add]
    exact (massOf_le_lookSum np hnn g).trans hlook.le
  · intro hall
    rw [hsum, dictSum_zeroDict, zero_add, massOf_eq_lookSum np g hall, hlook]

/-- Iterating the distribution step on a closed well-formed graph keeps
the invariants of `distStep_spec` across all steps. -/
theorem distIter_spec (g : Graph) (hwf : (dkeys g).Nodup)
    (hcl : ∀ e ∈ g, ∀ t ∈ e.2, t ∈ dkeys g) :
    ∀ (steps : ℕ) (np : Dict ℚ), dkeys np = dkeys g → nonnegD np →
    ∃ d, distIter g steps np = some d ∧ dkeys d = dkeys g ∧ nonnegD d ∧
      dictSum d ≤ dictSum np ∧
      ((∀ e ∈ g, e.2 ≠ []) → dictSum d = dictSum np) := by
  intro steps
  induction steps with
  | zero => exact fun np hk hnn => ⟨np, rfl, hk, hnn, le_refl _, fun _ => rfl⟩
  | succ n ih =>
    intro np hk hnn
    obtain ⟨np1, h1, hk1, hnn1, hle1, heq1⟩ := distStep_spec g hwf hcl np hk hnn
    obtain ⟨d, hd, hkd, hnnd, hled, heqd⟩ := ih np1 hk1 hnn1
    refine ⟨d, ?_, hkd, hnnd, hled.trans hle1, fun hall => (heqd hall).trans (heq1 hall)⟩
    simp [distIter, h1, hd]

theorem dkeys_initProb (g : Graph) : dkeys (initProb g) = dkeys g := by
  simp [initProb, dkeys]

theorem nonneg_initProb (g : Graph) : nonnegD (initProb g) := by
  intro x hx
  simp [initProb] at hx
  obtain ⟨-, hx⟩ := hx
  rw [← hx]
  positivity

theorem listSum_map_const (l : List α) (c : ℚ) :
    ((l.map fun _ => c).sum) = (l.length : ℚ) * c := by
  induction l with
  | nil => simp
  | cons e rest ih => simp [ih]; ring

theorem dictSum_initProb (g : Graph) (h : g ≠ []) : dictSum (initProb g) = 1 := by
  have hlen : (g.length : ℚ) ≠ 0 :=
    Nat.cast_ne_zero.mpr (fun h0 => h (List.length_eq_zero.mp h0))
  have hmap : dictSum (initProb g) = ((g.map fun _ => 1 / (g.length : ℚ)).sum) := by
    rw [dictSum, initProb, List.map_map]
    rfl
  rw [hmap, listSum_map_const g (1 / (g.length : ℚ)), mul_one_div, div_self hlen]

theorem dictSum_initProb_le_one (g : Graph) : dictSum (initProb g) ≤ 1 := by
  cases g with
  | nil => simp [initProb, dictSum]
  | cons e rest => exact (dictSum_initProb (e :: rest) (by simp)).le

end PageRank

theorem dget_map_const {g : Graph} {n : Node} (c : ℚ) (h : n ∈ dkeys g) :
    dget n (g.map fun e => (e.1, c)) = some c := by
  induction g with
  | nil => simp [dkeys] at h
  | cons e rest ih =>
    by_cases he : e.1 = n
    · simp [dget, he]
    · have : n ∈ dkeys rest := by
        simp [dkeys] at h ⊢
        rcases h with h | h
        · exact absurd h.symm he
        · exact h
      simp [dget, he, ih this]

/-- C2, counterexample: on the graph built from the single edge `A B` the
target `B` is not a key of `next_prob`, so the first iteration of
`distribution_page_rank` in `page_rank.py` raises a `KeyError`
(`next_prob[target] += p`) and returns no probability mapping at all. -/
theorem C2_distribution_dangling_target_faults :
    PageRank.distribution_page_rank [("A", ["B"])] 1 = none := by decide

/-- C2 (amended): for every well-formed graph whose edge targets are all
source keys, `distribution_page_rank` of `page_rank.py` returns a mapping
whose total is at most 1, the total is non-increasing from one iteration
to the next, and it is exactly 1 when every node has at least one outgoing
edge; on a graph with a pure dangling target the function instead raises
`KeyError`. -/
theorem C2_closed_mass_conservation (g : Graph) (hwf : (dkeys g).Nodup)
    (hcl : ∀ e ∈ g, ∀ t ∈ e.2, t ∈ dkeys g) (steps : ℕ) :
    ∃ d, PageRank.distribution_page_rank g steps = some d ∧ dictSum d ≤ 1 ∧
      (∀ d2, PageRank.distStep g d = some d2 → dictSum d2 ≤ dictSum d) ∧
      ((∀ e ∈ g, e.2 ≠ []) → g ≠ [] → dictSum d = 1) := by
  obtain ⟨d, hd, hk, hnn, hle, heq⟩ :=
    PageRank.distIter_spec g hwf hcl steps (PageRank.initProb g)
      (PageRank.dkeys_initProb g) (PageRank.nonneg_initProb g)
  refine ⟨d, hd, hle.trans (PageRank.dictSum_initProb_le_one g), ?_, ?_⟩
  · intro d2 h2
    obtain ⟨np1, h1, _, _, hle1, _⟩ := PageRank.distStep_spec g hwf hcl d hk hnn
    have h3 : np1 = d2 := by rw [h1] at h2; exact Option.some.inj h2
    exact h3 ▸ hle1
  · intro hall hne
    rw [heq hall, PageRank.dictSum_initProb g hne]

theorem C2_closed_mass_conservation_witness :
    ∃ d, PageRank.distribution_page_rank [("A", ["B"]), ("B", ["A", "A"])] 3 = some d ∧
      dictSum d ≤ 1 ∧
      (∀ d2, PageRank.distStep [("A", ["B"]), ("B", ["A", "A"])] d = some d2 →
        dictSum d2 ≤ dictSum d) ∧
      ((∀ e ∈ ([("A", ["B"]), ("B", ["A", "A"])] : Graph), e.2 ≠ []) →
        ([("A", ["B"]), ("B", ["A", "A"])] : Graph) ≠ [] → dictSum d = 1) :=
  C2_closed_mass_conservation _ (by decide) (by decide) 3

/-- The two-node cycle graph built from the edge lines `A B` and `B A`. -/
def cycleGraph : Graph := [("A", ["B"]), ("B", ["A"])]

theorem cycleGraph_step_fixed :
    PageRank.distStep cycleGraph (PageRank.initProb cycleGraph) =
      some (PageRank.initProb cycleGraph) := by
  simp [cycleGraph, PageRank.distStep, PageRank.distLoop, PageRank.addToTargets,
    PageRank.initProb, PageRank.zeroDict, dincrQ, dget]

theorem cycleGraph_iter (n : ℕ) :
    PageRank.distIter cycleGraph n (PageRank.initProb cycleGraph) =
      some (PageRank.initProb cycleGraph) := by
  induction n with
  | zero => rfl
  | succ m ih => simp [PageRank.distIter, cycleGraph_step_fixed, ih]

/-- C8: on the two-node cycle graph built from edges `(A, B)` and
`(B, A)`, `distribution_page_rank` with two steps returns the uniform
distribution `0.5 / 0.5`, and more generally returns it after any even
step count. -/
theorem C8_cycle_even_steps_uniform :
    (∃ d, PageRank.distribution_page_rank cycleGraph 2 = some d ∧
      dget "A" d = some (1 / 2) ∧ dget "B" d = some (1 / 2)) ∧
    (∀ n : ℕ, n % 2 = 0 →
      ∃ d, PageRank.distribution_page_rank cycleGraph n = some d ∧
        dget "A" d = some (1 / 2) ∧ dget "B" d = some (1 / 2)) := by
  have hA : dget "A" (PageRank.initProb cycleGraph) = some (1 / 2) := by
    norm_num [PageRank.initProb, cycleGraph, dget]
  have hB : dget "B" (PageRank.initProb cycleGraph) = some (1 / 2) := by
    norm_num [PageRank.initProb, cycleGraph, dget]
  exact ⟨⟨_, cycleGraph_iter 2, hA, hB⟩,
    fun n _ => ⟨_, cycleGraph_iter n, hA, hB⟩⟩

theorem C8_cycle_even_steps_uniform_witness :
    ∃ d, PageRank.distribution_page_rank cycleGraph 4 = some d ∧
      dget "A" d = some (1 / 2) ∧ dget "B" d = some (1 / 2) :=
  C8_cycle_even_steps_uniform.2 4 (by decide)

namespace PageRank

/-- Embedding of the transition choice of `stochastic_page_rank` in
`page_rank.py`: `if current_node not in graph or len(graph[current_node])
== 0: current_node = random.choice(nodes) else: current_node =
random.choice(graph[current_node])`, fed one draw `r`. -/
def pick (g : Graph) (nodes : List Node) (r : ℕ) (current : Node) : Option Node :=
  match dget current g with
  | none => choice nodes r
  | some ts => if ts.length = 0 then choice nodes r else choice ts r

/-- Embedding of the walk loop of `stochastic_page_rank` in
`page_rank.py`: `n` remaining steps, `i` the index of the next random
draw; `hit_count[current_node] += 1` is `dincrN`, whose `none` result
models the `KeyError` raised when the walk lands on a node that is not a
key of `hit_count` (a pure dangling target). -/
def walkLoop (g : Graph) (nodes : List Node) (rng : ℕ → ℕ) :
    ℕ → ℕ → Node → Dict ℕ → Option (Dict ℕ)
  | 0, _, _, hit => some hit
  | n + 1, i, current, hit =>
    match pick g nodes (rng i) current with
    | none => none
    | some next =>
      match dincrN hit next with
      | none => none
      | some hit1 => walkLoop g nodes rng n (i + 1) next hit1

/-- Embedding of `stochastic_page_rank(graph, args)` of `page_rank.py`
with `repeats = args.repeats`, fed by the random stream `rng` (one draw
per `random.choice`); `none` models an uncaught `IndexError` (empty node
list) or `KeyError` (visit to a non-key node). -/
def stochastic_page_rank (g : Graph) (repeats : ℕ) (rng : ℕ → ℕ) : Option (Dict ℕ) :=
  match choice (dkeys g) (rng 0) with
  | none => none
  | some start =>
    match dincrN (g.map (fun e => (e.1, 0))) start with
    | none => none
    | some hit1 => walkLoop g (dkeys g) rng repeats 1 start hit1

end PageRank

namespace PageRankOpt

/-! Embedding of `page_rank_optimisation.py`.  Its `load_graph` uses a
`defaultdict(list)` and appends exactly as the plain variant, producing
the same source-keyed adjacency dict, so the `Graph` type is shared. -/

/-- Embedding of `out_node = {node: len(targets) for node, targets in
graph.items()}`. -/
def out_node (g : Graph) : Dict ℕ := g.map (fun e => (e.1, e.2.length))

theorem dget_out_node (g : Graph) (c : Node) :
    dget c (out_node g) = (dget c g).map List.length := by
  induction g with
  | nil => rfl
  | cons e rest ih =>
    obtain ⟨k1, ts⟩ := e
    by_cases h : k1 = c
    · simp [out_node, dget, h]
    · simp only [out_node, dget, List.map_cons] at ih ⊢
      simp [h, ih]

/-- Embedding of the transition choice of the optimised
`stochastic_page_rank`: `if current_node not in graph or
out_node[current_node] == 0`.  The lookup `out_node[current_node]` is
reached only when `current_node` is a key of `graph` and hence of
`out_node`, so the `getD 0` default is never taken. -/
def pick (g : Graph) (nodes : List Node) (r : ℕ) (current : Node) : Option Node :=
  match dget current g with
  | none => choice nodes r
  | some ts =>
    if (dget current (out_node g)).getD 0 = 0 then choice nodes r
    else choice ts r

/-- Embedding of the walk loop of the optimised `stochastic_page_rank`;
`hit_count` is a `defaultdict(int)`, so the increment `dincrD` never
fails. -/
def walkLoop (g : Graph) (nodes : List Node) (rng : ℕ → ℕ) :
    ℕ → ℕ → Node → Dict ℕ → Option (Dict ℕ)
  | 0, _, _, hit => some hit
  | n + 1, i, current, hit =>
    match pick g nodes (rng i) current with
    | none => none
    | some next => walkLoop g nodes rng n (i + 1) next (dincrD hit next)

/-- Embedding of `stochastic_page_rank(graph, args)` of
`page_rank_optimisation.py`; the initial `hit_count` is an empty
`defaultdict(int)` and the start node's increment creates its entry. -/
def stochastic_page_rank (g : Graph) (repeats : ℕ) (rng : ℕ → ℕ) : Option (Dict ℕ) :=
  match choice (dkeys g) (rng 0) with
  | none => none
  | some start => walkLoop g (dkeys g) rng repeats 1 start (dincrD [] start)

end PageRankOpt

theorem choice_eq_some {l : List α} (h : l ≠ []) (r : ℕ) :
    ∃ a, choice l r = some a := by
  have hl : 0 < l.length := List.length_pos.mpr h
  have hr : r % l.length < l.length := Nat.mod_lt _ hl
  exact ⟨l.get ⟨r % l.length, hr⟩, by simp [choice, List.get?_eq_get hr]⟩

theorem dincrD_sum (d : Dict ℕ) (k : Node) :
    dictSumN (dincrD d k) = dictSumN d + 1 := by
  induction d with
  | nil => simp [dincrD, dictSumN]
  | cons e rest ih =>
    obtain ⟨k1, v⟩ := e
    by_cases h : k1 = k
    · simp [dincrD, h, dictSumN]
      omega
    · simp only [dictSumN, List.map_cons, List.sum_cons] at ih ⊢
      simp [dincrD, h, dictSumN]
      omega

namespace PageRankOpt

theorem pick_eq_some (g : Graph) (nodes : List Node) (hne : nodes ≠ [])
    (r : ℕ) (current : Node) : ∃ next, pick g nodes r current = some next := by
  cases hget : dget current g with
  | none => simpa [pick, hget] using choice_eq_some hne r
  | some ts =>
    by_cases hz : (dget current (out_node g)).getD 0 = 0
    · simpa [pick, hget, hz] using choice_eq_some hne r
    · have hlen : (dget current (out_node g)).getD 0 = ts.length := by
        rw [dget_out_node, hget]
        rfl
      rw [hlen] at hz
      have hts : ts ≠ [] := fun he => hz (by simp [he])
      simpa [pick, hget, hlen, hz] using choice_eq_some hts r

/-- The optimised walk loop never fails on a non-empty node list, and
each of its `n` steps adds exactly one visit to the total. -/
theorem walkLoop_total (g : Graph) (nodes : List Node) (rng : ℕ → ℕ)
    (hne : nodes ≠ []) :
    ∀ (n i : ℕ) (current : Node) (hit : Dict ℕ),
    ∃ hit1, walkLoop g nodes rng n i current hit = some hit1 ∧
      dictSumN hit1 = dictSumN hit + n := by
  intro n
  induction n with
  | zero => exact fun i current hit => ⟨hit, rfl, by simp⟩
  | succ m ih =>
    intro i current hit
    obtain ⟨next, hnext⟩ := pick_eq_some g nodes hne (rng i) current
    obtain ⟨hit1, hwalk, hsum⟩ := ih (i + 1) next (dincrD hit next)
    refine ⟨hit1, ?_, ?_⟩
    · simp [walkLoop, hnext, hwalk]
    · rw [hsum, dincrD_sum]
      omega

end PageRankOpt

/-- C1, counterexample: on the graph built from the single edge `A B` the
plain variant's walk moves to the pure dangling target `B` at the first
step and `hit_count[current_node] += 1` raises a `KeyError`, so no
visit-count mapping is returned at all, whatever the random stream does
(shown here for the constant-zero stream). -/
theorem C1_plain_stochastic_faults_on_dangling_target :
    PageRank.stochastic_page_rank [("A", ["B"])] 1 (fun _ => 0) = none := by
  decide

/-- C1 (amended): for every non-empty graph and every `step_count ≥ 0`,
the optimised variant's stochastic estimator returns a visit-count
mapping whose total over all nodes is exactly `step_count + 1`; the plain
variant instead raises `KeyError` when the walk reaches a pure dangling
target. -/
theorem C1_opt_stochastic_total (g : Graph) (h : g ≠ []) (repeats : ℕ)
    (rng : ℕ → ℕ) :
    ∃ hit, PageRankOpt.stochastic_page_rank g repeats rng = some hit ∧
      dictSumN hit = repeats + 1 := by
  have hne : dkeys g ≠ [] := by
    simp [dkeys]
    exact h
  obtain ⟨start, hstart⟩ := choice_eq_some hne (rng 0)
  obtain ⟨hit1, hwalk, hsum⟩ :=
    PageRankOpt.walkLoop_total g (dkeys g) rng hne repeats 1 start (dincrD [] start)
  refine ⟨hit1, ?_, ?_⟩
  · simp [PageRankOpt.stochastic_page_rank, hstart, hwalk]
  · rw [hsum, dincrD_sum]
    simp [dictSumN]
    omega

theorem C1_opt_stochastic_total_witness :
    ∃ hit, PageRankOpt.stochastic_page_rank [("A", ["A"]), ("B", [])] 2
        (fun _ => 0) = some hit ∧ dictSumN hit = 2 + 1 :=
  C1_opt_stochastic_total _ (by decide) 2 (fun _ => 0)

/-- C3, counterexample: the claim quantifies over every non-empty graph
and both dict variants, but on the graph built from the single edge `A B`
the plain variant's walk faults with a `KeyError` at its first transition
instead of completing the requested two transitions. -/
theorem C3_plain_stochastic_walk_faults :
    PageRank.stochastic_page_rank [("A", ["B"])] 2 (fun _ => 0) = none := by
  decide

/-- C3 (amended): for every non-empty graph, the optimised variant's walk
completes after exactly `step_count` transitions without faulting —
restarting, when the current node has no outgoing edges or is absent from
the source-keyed graph, at a random node drawn from the graph's key list;
the plain variant instead raises `KeyError` when the walk reaches a pure
dangling target. -/
theorem C3_opt_stochastic_completes (g : Graph) (h : g ≠ []) (repeats : ℕ)
    (rng : ℕ → ℕ) :
    (PageRankOpt.stochastic_page_rank g repeats rng).isSome = true := by
  have hne : dkeys g ≠ [] := by
    simp [dkeys]
    exact h
  obtain ⟨start, hstart⟩ := choice_eq_some hne (rng 0)
  obtain ⟨hit1, hwalk, -⟩ :=
    PageRankOpt.walkLoop_total g (dkeys g) rng hne repeats 1 start (dincrD [] start)
  simp [PageRankOpt.stochastic_page_rank, hstart, hwalk]

theorem C3_opt_stochastic_completes_witness :
    (PageRankOpt.stochastic_page_rank [("B", ["C"])] 3 (fun _ => 1)).isSome = true :=
  C3_opt_stochastic_completes _ (by decide) 3 (fun _ => 1)

/-- C5: the code has no empty-graph guard.  On a graph with zero nodes
the plain variant's stochastic estimator hits `random.choice([])`, a
generic `IndexError` (embedded as `none`) — exactly the generic indexing
fault the specification says must not occur — while its distribution
estimator silently returns the empty mapping instead of failing fast. -/
theorem C5_empty_graph_no_guard :
    PageRank.stochastic_page_rank [] 0 (fun _ => 0) = none ∧
    PageRank.distribution_page_rank [] 5 = some [] := by
  exact ⟨rfl, rfl⟩

/-- Helper for `tokens`: scans the characters of a line, collecting the
current in-progress token in `acc` (reversed). -/
def tokensAux : List Char → List Char → List String
  | [], acc => if acc = [] then [] else [String.mk acc.reverse]
  | c :: cs, acc =>
    if c.isWhitespace then
      if acc = [] then tokensAux cs [] else String.mk acc.reverse :: tokensAux cs []
    else tokensAux cs (c :: acc)

/-- Embedding of Python's `line.split()` with no arguments: the line is
split on runs of whitespace and empty tokens are dropped, so leading and
trailing whitespace is ignored. -/
def tokens (line : String) : List String := tokensAux line.data []

/-- Embedding of the failure raised when a line does not decompose into
exactly two whitespace-separated tokens (the spec's
`MalformedInputError`; in the code the tuple unpacking
`node, target = line.split()` raises a `ValueError` there). -/
structure MalformedInputError where
  line : String
deriving DecidableEq

namespace PageRank

/-- Embedding of one edge insertion of `load_graph`: `if node in graph:
graph[node].append(target) else: graph[node] = [target]` — a new key is
appended at the end of the insertion-ordered dict. -/
def insertEdge (g : Graph) (n t : Node) : Graph :=
  match g with
  | [] => [(n, [t])]
  | (k, ts) :: rest =>
    if k = n then (k, ts ++ [t]) :: rest else (k, ts) :: insertEdge rest n t

/-- Embedding of the line loop of `load_graph(args)` of `page_rank.py`
starting from the partially built dict `g`: construction aborts with the
first line whose token count is not two. -/
def load_graph_from (g : Graph) : List String → Except MalformedInputError Graph
  | [] => .ok g
  | line :: rest =>
    match tokens line with
    | [node, target] => load_graph_from (insertEdge g node target) rest
    | _ => .error ⟨line⟩

/-- Embedding of `load_graph(args)` of `page_rank.py` over the list of
input lines. -/
def load_graph (lines : List String) : Except MalformedInputError Graph :=
  load_graph_from [] lines

end PageRank

theorem load_graph_from_error :
    ∀ lines : List String, (∃ l ∈ lines, (tokens l).length ≠ 2) →
    ∀ g : Graph, ∃ e, PageRank.load_graph_from g lines = .error e := by
  intro lines
  induction lines with
  | nil => intro h; simp at h
  | cons line rest ih =>
    intro h g
    cases hts : tokens line with
    | nil => exact ⟨⟨line⟩, by simp [PageRank.load_graph_from, hts]⟩
    | cons a l2 =>
      cases l2 with
      | nil => exact ⟨⟨line⟩, by simp [PageRank.load_graph_from, hts]⟩
      | cons b l3 =>
        cases l3 with
        | nil =>
          have h2 : ∃ l ∈ rest, (tokens l).length ≠ 2 := by
            rcases h with ⟨l, hl, hlen⟩
            rcases List.mem_cons.mp hl with he | hm
            · exact absurd (by rw [he, hts]; rfl) hlen
            · exact ⟨l, hm, hlen⟩
          obtain ⟨e, he⟩ := ih h2 (PageRank.insertEdge g a b)
          exact ⟨e, by simp [PageRank.load_graph_from, hts, he]⟩
        | cons c l4 => exact ⟨⟨line⟩, by simp [PageRank.load_graph_from, hts]⟩

/-- C4: whenever some input line does not decompose into exactly two
whitespace-separated tokens (one token, three tokens, or a blank line),
`load_graph` of `page_rank.py` fails with the malformed-input error and
returns no graph to the caller. -/
theorem C4_malformed_line_fails (lines : List String)
    (h : ∃ l ∈ lines, (tokens l).length ≠ 2) :
    ∃ e, PageRank.load_graph lines = .error e :=
  load_graph_from_error lines h []

theorem C4_malformed_line_fails_witness :
    ∃ e, PageRank.load_graph ["A B", "onlyonetoken"] = .error e :=
  C4_malformed_line_fails ["A B", "onlyonetoken"]
    ⟨"onlyonetoken", by decide, by decide⟩

namespace PageRankOpt

/-! Embedding of `distribution_page_rank` of `page_rank_optimisation.py`
(lines 107–140), translated separately from its own source text. -/

/-- Embedding of the inner loop `for target in graph[node]:
next_prob[target] += p` of the optimised `distribution_page_rank`. -/
def addToTargets (p : ℚ) : List Node → Dict ℚ → Option (Dict ℚ)
  | [], next => some next
  | t :: ts, next =>
    match dincrQ next t p with
    | none => none
    | some next1 => addToTargets p ts next1

/-- Embedding of `for node in graph: if len(graph[node]) > 0: ...` of the
optimised `distribution_page_rank`. -/
def distLoop (np : Dict ℚ) : Graph → Dict ℚ → Option (Dict ℚ)
  | [], next => some next
  | (node, ts) :: rest, next =>
    if 0 < ts.length then
      match dget node np with
      | none => none
      | some v =>
        match addToTargets (v / (ts.length : ℚ)) ts next with
        | none => none
        | some next1 => distLoop np rest next1
    else distLoop np rest next

/-- Embedding of `next_prob = {node: 0 for node in graph}` of the
optimised variant. -/
def zeroDict (g : Graph) : Dict ℚ := g.map (fun e => (e.1, (0 : ℚ)))

/-- One iteration of the optimised distribution outer loop. -/
def distStep (g : Graph) (np : Dict ℚ) : Option (Dict ℚ) := distLoop np g (zeroDict g)

/-- Embedding of `node_prob = {node: 1 / nodes for node in graph}` of the
optimised variant. -/
def initProb (g : Graph) : Dict ℚ := g.map (fun e => (e.1, 1 / (g.length : ℚ)))

/-- Embedding of `for x in range(args.steps)` of the optimised variant. -/
def distIter (g : Graph) : ℕ → Dict ℚ → Option (Dict ℚ)
  | 0, np => some np
  | n + 1, np =>
    match distStep g np with
    | none => none
    | some np1 => distIter g n np1

/-- Embedding of `distribution_page_rank(graph, args)` of
`page_rank_optimisation.py`. -/
def distribution_page_rank (g : Graph) (steps : ℕ) : Option (Dict ℚ) :=
  distIter g steps (initProb g)

end PageRankOpt

theorem addToTargets_eq (ts : List Node) :
    ∀ (p : ℚ) (next : Dict ℚ),
    PageRank.addToTargets p ts next = PageRankOpt.addToTargets p ts next := by
  induction ts with
  | nil => intro p next; rfl
  | cons t ts ih =>
    intro p next
    cases h : dincrQ next t p with
    | none => simp [PageRank.addToTargets, PageRankOpt.addToTargets, h]
    | some n1 => simp [PageRank.addToTargets, PageRankOpt.addToTargets, h, ih]

theorem distLoop_eq (np : Dict ℚ) (entries : Graph) :
    ∀ next : Dict ℚ,
    PageRank.distLoop np entries next = PageRankOpt.distLoop np entries next := by
  induction entries with
  | nil => intro next; rfl
  | cons e rest ih =>
    intro next
    obtain ⟨node, ts⟩ := e
    by_cases hl : 0 < ts.length
    · cases hv : dget node np with
      | none => simp [PageRank.distLoop, PageRankOpt.distLoop, hl, hv]
      | some v =>
        cases ha : PageRank.addToTargets (v / (ts.length : ℚ)) ts next with
        | none =>
          simp [PageRank.distLoop, PageRankOpt.distLoop, hl, hv, ha,
            (addToTargets_eq ts _ next).symm.trans ha]
        | some n1 =>
          simp [PageRank.distLoop, PageRankOpt.distLoop, hl, hv, ha,
            (addToTargets_eq ts _ next).symm.trans ha, ih]
    · simp [PageRank.distLoop, PageRankOpt.distLoop, hl, ih]

theorem distStep_eq (g : Graph) (np : Dict ℚ) :
    PageRank.distStep g np = PageRankOpt.distStep g np :=
  distLoop_eq np g (PageRank.zeroDict g)

theorem distIter_eq (g : Graph) :
    ∀ (n : ℕ) (np : Dict ℚ),
    PageRank.distIter g n np = PageRankOpt.distIter g n np := by
  intro n
  induction n with
  | zero => intro np; rfl
  | succ m ih =>
    intro np
    cases h : PageRank.distStep g np with
    | none =>
      simp [PageRank.distIter, PageRankOpt.distIter, h, (distStep_eq g np).symm.trans h]
    | some np1 =>
      simp [PageRank.distIter, PageRankOpt.distIter, h,
        (distStep_eq g np).symm.trans h, ih]

/-- C9: the plain-dict variant and the optimised variant are
extensionally equal on the distribution estimator: for every graph and
every step count, `distribution_page_rank` of `page_rank.py` and
`distribution_page_rank` of `page_rank_optimisation.py` return the same
probability mapping (or fail in the same way). -/
theorem C9_distribution_variants_agree (g : Graph) (steps : ℕ) :
    PageRank.distribution_page_rank g steps = PageRankOpt.distribution_page_rank g steps :=
  distIter_eq g steps (PageRank.initProb g)

namespace PageRank

/-- Embedding of `print_stats(graph)` of `page_rank.py` as the pair of
numbers it prints: `len(graph)` (the number of keys, i.e. of distinct
sources) and the summed lengths of the adjacency lists. -/
def print_stats (g : Graph) : ℕ × ℕ :=
  (g.length, (g.map (fun e => e.2.length)).sum)

/-- The edge-insertion loop of `load_graph` of `page_rank.py`, run over an
already parsed edge stream. -/
def load_graph_edges (edges : List (Node × Node)) : Graph :=
  edges.foldl (fun g e => insertEdge g e.1 e.2) []

theorem mem_dkeys_insertEdge (g : Graph) (n t x : Node) :
    x ∈ dkeys (insertEdge g n t) ↔ x ∈ dkeys g ∨ x = n := by
  induction g with
  | nil => simp [insertEdge, dkeys, eq_comm]
  | cons e rest ih =>
    obtain ⟨k, ts⟩ := e
    by_cases hk : k = n
    · subst hk
      simp [insertEdge, dkeys]
      tauto
    · simp only [insertEdge, if_neg hk, dkeys, List.map_cons, List.mem_cons] at ih ⊢
      tauto

theorem nodup_dkeys_insertEdge (g : Graph) (n t : Node)
    (h : (dkeys g).Nodup) : (dkeys (insertEdge g n t)).Nodup := by
  induction g with
  | nil => simp [insertEdge, dkeys]
  | cons e rest ih =>
    obtain ⟨k, ts⟩ := e
    simp only [dkeys, List.map_cons, List.nodup_cons] at h
    by_cases hk : k = n
    · subst hk
      simp [insertEdge, dkeys]
      exact ⟨by simpa [dkeys] using h.1, by simpa [dkeys] using h.2⟩
    · simp only [insertEdge, if_neg hk, dkeys, List.map_cons, List.nodup_cons]
      refine ⟨?_, ih h.2⟩
      rw [show List.map Prod.fst (insertEdge rest n t) = dkeys (insertEdge rest n t) from rfl,
        mem_dkeys_insertEdge]
      push_neg
      exact ⟨by simpa [dkeys] using h.1, hk⟩

theorem edgesum_insertEdge (g : Graph) (n t : Node) :
    ((insertEdge g n t).map (fun e => e.2.length)).sum =
      (g.map (fun e => e.2.length)).sum + 1 := by
  induction g with
  | nil => simp [insertEdge]
  | cons e rest ih =>
    obtain ⟨k, ts⟩ := e
    by_cases hk : k = n
    · simp [insertEdge, hk]
      omega
    · simp [insertEdge, hk, ih]
      omega

theorem load_graph_edges_from_mem :
    ∀ (E : List (Node × Node)) (g : Graph) (x : Node),
    x ∈ dkeys (E.foldl (fun g e => insertEdge g e.1 e.2) g) ↔
      x ∈ dkeys g ∨ x ∈ E.map Prod.fst := by
  intro E
  induction E with
  | nil => simp
  | cons e E2 ih =>
    intro g x
    rw [List.foldl_cons, ih, mem_dkeys_insertEdge]
    simp
    tauto

theorem load_graph_edges_from_nodup :
    ∀ (E : List (Node × Node)) (g : Graph), (dkeys g).Nodup →
    (dkeys (E.foldl (fun g e => insertEdge g e.1 e.2) g)).Nodup := by
  intro E
  induction E with
  | nil => exact fun g h => h
  | cons e E2 ih =>
    intro g h
    exact ih _ (nodup_dkeys_insertEdge g e.1 e.2 h)

theorem load_graph_edges_from_count :
    ∀ (E : List (Node × Node)) (g : Graph),
    ((E.foldl (fun g e => insertEdge g e.1 e.2) g).map (fun e => e.2.length)).sum =
      (g.map (fun e => e.2.length)).sum + E.length := by
  intro E
  induction E with
  | nil => simp
  | cons e E2 ih =>
    intro g
    rw [List.foldl_cons, ih, edgesum_insertEdge]
    simp
    omega

/-- The node count printed by the plain variant is the number of distinct
sources of the edge stream. -/
theorem print_stats_nodes (edges : List (Node × Node)) :
    (print_stats (load_graph_edges edges)).1 = ((edges.map Prod.fst).toFinset).card := by
  have hmem : ∀ x, x ∈ dkeys (load_graph_edges edges) ↔ x ∈ edges.map Prod.fst := by
    intro x
    rw [load_graph_edges, load_graph_edges_from_mem]
    simp [dkeys]
  have hnd : (dkeys (load_graph_edges edges)).Nodup :=
    load_graph_edges_from_nodup edges [] (by simp [dkeys])
  have hset : (dkeys (load_graph_edges edges)).toFinset = (edges.map Prod.fst).toFinset := by
    ext x
    simp only [List.mem_toFinset]
    exact hmem x
  have hlen : (print_stats (load_graph_edges edges)).1 = (dkeys (load_graph_edges edges)).length := by
    simp [print_stats, dkeys]
  rw [hlen, ← List.toFinset_card_of_nodup hnd, hset]

/-- The edge count printed by the plain variant is the number of edges of
the stream counted with multiplicity. -/
theorem print_stats_edges (edges : List (Node × Node)) :
    (print_stats (load_graph_edges edges)).2 = edges.length := by
  rw [print_stats, load_graph_edges]
  simpa using load_graph_edges_from_count edges []

end PageRank

namespace PageRank2

/-! Embedding of `page_rank_2.py` (networkx variant).  A
`networkx.DiGraph` is embedded as its successor-adjacency dict: one entry
per node, in node insertion order, holding the list of distinct
successors in insertion order.  `add_edge(u, v)` first registers both
endpoints as nodes, then records `v` as a successor of `u` once. -/

/-- Registers `n` as a node if absent (appended at the end with no
successors), as networkx does for each endpoint of `add_edge`. -/
def ensureNode (g : Graph) (n : Node) : Graph :=
  if n ∈ dkeys g then g else g ++ [(n, [])]

/-- Appends `v` to the successors of `u` unless the edge already exists
(networkx `DiGraph` stores at most one copy of an edge). -/
def addSucc (u v : Node) : Graph → Graph
  | [] => []
  | (k, succs) :: rest =>
    if k = u then (k, if v ∈ succs then succs else succs ++ [v]) :: rest
    else (k, succs) :: addSucc u v rest

/-- Embedding of `graph.add_edge(node, target)`. -/
def add_edge (g : Graph) (u v : Node) : Graph :=
  addSucc u v (ensureNode (ensureNode g u) v)

/-- Embedding of `load_graph(args)` of `page_rank_2.py` over the already
split edge stream: builds an empty `DiGraph` and adds each edge. -/
def load_graph (edges : List (Node × Node)) : Graph :=
  edges.foldl (fun g e => add_edge g e.1 e.2) []

/-- Embedding of `graph.number_of_nodes()`. -/
def number_of_nodes (g : Graph) : ℕ := g.length

/-- Embedding of `graph.number_of_edges()`: the number of stored
(deduplicated) directed edges, i.e. the summed successor-list lengths. -/
def number_of_edges (g : Graph) : ℕ := (g.map (fun e => e.2.length)).sum

/-- Embedding of `print_stats(graph)` of `page_rank_2.py` as the pair of
numbers it prints. -/
def print_stats (g : Graph) : ℕ × ℕ := (number_of_nodes g, number_of_edges g)

/-- The directed edge `(u, v)` is stored in the graph. -/
def hasEdge (g : Graph) (u v : Node) : Prop :=
  ∃ succs, dget u g = some succs ∧ v ∈ succs

/-- Well-formedness maintained by graph construction: node keys are
distinct and each successor list is duplicate-free. -/
def NxWf (g : Graph) : Prop :=
  (dkeys g).Nodup ∧ ∀ e ∈ g, e.2.Nodup

end PageRank2

theorem mem_dkeys_of_dget {g : Dict α} {k : Node} {v : α}
    (h : dget k g = some v) : k ∈ dkeys g := by
  induction g with
  | nil => simp [dget] at h
  | cons e rest ih =>
    obtain ⟨k1, w⟩ := e
    by_cases hk : k1 = k
    · simp [dkeys, hk]
    · simp [dget, hk] at h
      simp [dkeys]
      right
      simpa [dkeys] using ih h

theorem dget_none_of_not_mem {g : Dict α} {k : Node} (h : k ∉ dkeys g) :
    dget k g = none := by
  cases hd : dget k g with
  | none => rfl
  | some v => exact absurd (mem_dkeys_of_dget hd) h

theorem dget_append_of_some {g h : Dict α} {u : Node} {v : α}
    (hd : dget u g = some v) : dget u (g ++ h) = some v := by
  induction g with
  | nil => simp [dget] at hd
  | cons e rest ih =>
    obtain ⟨k1, w⟩ := e
    by_cases hk : k1 = u
    · simpa [dget, hk] using hd
    · simp [dget, hk] at hd ⊢
      exact ih hd

theorem dget_append_of_none {g h : Dict α} {u : Node}
    (hd : dget u g = none) : dget u (g ++ h) = dget u h := by
  induction g with
  | nil => simp
  | cons e rest ih =>
    obtain ⟨k1, w⟩ := e
    by_cases hk : k1 = u
    · simp [dget, hk] at hd
    · simp [dget, hk] at hd ⊢
      exact ih hd

namespace PageRank2

theorem mem_dkeys_ensureNode (g : Graph) (n x : Node) :
    x ∈ dkeys (ensureNode g n) ↔ x ∈ dkeys g ∨ x = n := by
  rw [ensureNode]
  by_cases hm : n ∈ dkeys g
  · rw [if_pos hm]
    constructor
    · exact fun h => Or.inl h
    · rintro (h | h)
      · exact h
      · exact h ▸ hm
  · rw [if_neg hm]
    simp [dkeys]

theorem dget_ensureNode_ne (g : Graph) {n u : Node} (h : n ≠ u) :
    dget u (ensureNode g n) = dget u g := by
  rw [ensureNode]
  by_cases hm : n ∈ dkeys g
  · rw [if_pos hm]
  · rw [if_neg hm]
    cases hd : dget u g with
    | some v => exact dget_append_of_some hd
    | none =>
      rw [dget_append_of_none hd]
      simp [dget, h]

theorem hasEdge_ensureNode (g : Graph) (n a b : Node) :
    hasEdge (ensureNode g n) a b ↔ hasEdge g a b := by
  by_cases hn : n = a
  · subst hn
    rw [ensureNode]
    by_cases hm : n ∈ dkeys g
    · rw [if_pos hm]
    · rw [if_neg hm]
      constructor
      · rintro ⟨s, hs, hb⟩
        rw [dget_append_of_none (dget_none_of_not_mem hm)] at hs
        simp [dget] at hs
        subst hs
        simp at hb
      · rintro ⟨s, hs, hb⟩
        exact absurd (mem_dkeys_of_dget hs) hm
  · constructor
    · rintro ⟨s, hs, hb⟩
      exact ⟨s, (dget_ensureNode_ne g hn) ▸ hs, hb⟩
    · rintro ⟨s, hs, hb⟩
      exact ⟨s, (dget_ensureNode_ne g hn).trans hs, hb⟩

theorem number_of_edges_ensureNode (g : Graph) (n : Node) :
    number_of_edges (ensureNode g n) = number_of_edges g := by
  rw [ensureNode]
  by_cases hm : n ∈ dkeys g
  · rw [if_pos hm]
  · rw [if_neg hm]
    simp [number_of_edges]

theorem nxwf_ensureNode (g : Graph) (n : Node) (h : NxWf g) :
    NxWf (ensureNode g n) := by
  rw [ensureNode]
  by_cases hm : n ∈ dkeys g
  · rwa [if_pos hm]
  · rw [if_neg hm]
    constructor
    · have hk : dkeys (g ++ [(n, [])]) = dkeys g ++ [n] := by simp [dkeys]
      rw [hk, List.nodup_append]
      refine ⟨h.1, by simp, ?_⟩
      intro a ha hb
      simp at hb
      exact hm (hb ▸ ha)
    · intro e he
      rcases List.mem_append.mp he with he | he
      · exact h.2 e he
      · simp at he
        simp [he]

end PageRank2

namespace PageRank2

theorem dget_addSucc_self {g : Graph} {u : Node} {s : List Node} (v : Node)
    (h : dget u g = some s) :
    dget u (addSucc u v g) = some (if v ∈ s then s else s ++ [v]) := by
  induction g with
  | nil => simp [dget] at h
  | cons e rest ih =>
    obtain ⟨k, succs⟩ := e
    by_cases hk : k = u
    · simp [dget, hk] at h
      subst h
      simp [addSucc, hk, dget]
    · simp only [dget, if_neg hk] at h
      simp [addSucc, hk, dget, ih h]

theorem dget_addSucc_ne {g : Graph} {u a : Node} (v : Node) (h : a ≠ u) :
    dget a (addSucc u v g) = dget a g := by
  induction g with
  | nil => rfl
  | cons e rest ih =>
    obtain ⟨k, succs⟩ := e
    by_cases hk : k = u
    · have hua : ¬(u = a) := fun he => h he.symm
      simp [addSucc, hk, dget, hua]
    · simp [addSucc, hk, dget, ih]

theorem dkeys_addSucc (u v : Node) (g : Graph) :
    dkeys (addSucc u v g) = dkeys g := by
  induction g with
  | nil => rfl
  | cons e rest ih =>
    obtain ⟨k, succs⟩ := e
    by_cases hk : k = u
    · simp [addSucc, hk, dkeys]
    · simp only [addSucc, if_neg hk, dkeys, List.map_cons] at ih ⊢
      rw [ih]

theorem number_of_edges_addSucc {g : Graph} {u : Node} {s : List Node} (v : Node)
    (h : dget u g = some s) :
    number_of_edges (addSucc u v g) =
      (if v ∈ s then number_of_edges g else number_of_edges g + 1) := by
  induction g with
  | nil => simp [dget] at h
  | cons e rest ih =>
    obtain ⟨k, succs⟩ := e
    by_cases hk : k = u
    · simp [dget, hk] at h
      subst h
      by_cases hv : v ∈ succs
      · simp [addSucc, hk, hv]
      · simp [addSucc, hk, hv, number_of_edges]
        omega
    · simp only [dget, if_neg hk] at h
      have ihh := ih h
      by_cases hv : v ∈ s
      · rw [if_pos hv] at ihh ⊢
        simp only [addSucc, if_neg hk, number_of_edges, List.map_cons,
          List.sum_cons] at ihh ⊢
        omega
      · rw [if_neg hv] at ihh ⊢
        simp only [addSucc, if_neg hk, number_of_edges, List.map_cons,
          List.sum_cons] at ihh ⊢
        omega

theorem nxwf_addSucc (u v : Node) {g : Graph} (h : NxWf g) :
    NxWf (addSucc u v g) := by
  induction g with
  | nil => exact h
  | cons e rest ih =>
    obtain ⟨k, succs⟩ := e
    obtain ⟨h1, h2⟩ := h
    simp only [dkeys, List.map_cons, List.nodup_cons] at h1
    have hrest : NxWf rest := ⟨h1.2, fun e he => h2 e (by simp [he])⟩
    by_cases hk : k = u
    · refine ⟨?_, ?_⟩
      · simp only [addSucc, if_pos hk, dkeys, List.map_cons, List.nodup_cons]
        exact h1
      · intro e he
        simp only [addSucc, if_pos hk] at he
        rcases List.mem_cons.mp he with he | he
        · subst he
          by_cases hv : v ∈ succs
          · simpa [hv] using h2 (k, succs) (by simp)
          · have hnd : (succs ++ [v]).Nodup := by
              rw [List.nodup_append]
              refine ⟨h2 (k, succs) (by simp), by simp, ?_⟩
              intro x hx hx2
              rw [List.mem_singleton.mp hx2] at hx
              exact hv hx
            simpa [hv] using hnd
        · exact h2 e (by simp [he])
    · obtain ⟨ih1, ih2⟩ := ih hrest
      refine ⟨?_, ?_⟩
      · simp only [addSucc, if_neg hk, dkeys, List.map_cons, List.nodup_cons]
        refine ⟨?_, ih1⟩
        rw [show List.map Prod.fst (addSucc u v rest) = dkeys (addSucc u v rest) from rfl,
          dkeys_addSucc]
        exact h1.1
      · intro e he
        simp only [addSucc, if_neg hk] at he
        rcases List.mem_cons.mp he with he | he
        · subst he
          exact h2 (k, succs) (by simp)
        · exact ih2 e he

theorem hasEdge_addSucc (g : Graph) (u v a b : Node) (hu : u ∈ dkeys g) :
    hasEdge (addSucc u v g) a b ↔ hasEdge g a b ∨ (a = u ∧ b = v) := by
  by_cases ha : a = u
  · subst ha
    obtain ⟨s, hs⟩ := dget_eq_some_of_mem hu
    constructor
    · rintro ⟨s2, hs2, hb⟩
      rw [dget_addSucc_self v hs] at hs2
      have hs2e := Option.some.inj hs2
      by_cases hv : v ∈ s
      · rw [if_pos hv] at hs2e
        exact Or.inl ⟨s, hs, hs2e ▸ hb⟩
      · rw [if_neg hv] at hs2e
        rcases List.mem_append.mp (hs2e ▸ hb) with hb2 | hb2
        · exact Or.inl ⟨s, hs, hb2⟩
        · exact Or.inr ⟨rfl, by simpa using hb2⟩
    · rintro (⟨s2, hs2, hb⟩ | ⟨-, hbv⟩)
      · have hse : s2 = s := Option.some.inj (hs2.symm.trans hs)
        refine ⟨_, dget_addSucc_self v hs, ?_⟩
        by_cases hv : v ∈ s
        · simpa [hv] using hse ▸ hb
        · simp [hv]
          exact Or.inl (hse ▸ hb)
      · refine ⟨_, dget_addSucc_self v hs, ?_⟩
        rw [hbv]
        by_cases hv : v ∈ s
        · simpa [hv] using hv
        · simp [hv]
  · constructor
    · rintro ⟨s, hs, hb⟩
      exact Or.inl ⟨s, (dget_addSucc_ne v ha) ▸ hs, hb⟩
    · rintro (⟨s, hs, hb⟩ | ⟨hau, -⟩)
      · exact ⟨s, (dget_addSucc_ne v ha).trans hs, hb⟩
      · exact absurd hau ha

end PageRank2

namespace PageRank2

theorem mem_dkeys_add_edge (g : Graph) (u v x : Node) :
    x ∈ dkeys (add_edge g u v) ↔ x ∈ dkeys g ∨ x = u ∨ x = v := by
  rw [add_edge, dkeys_addSucc, mem_dkeys_ensureNode, mem_dkeys_ensureNode]
  tauto

theorem nxwf_add_edge (g : Graph) (u v : Node) (h : NxWf g) :
    NxWf (add_edge g u v) :=
  nxwf_addSucc u v (nxwf_ensureNode _ v (nxwf_ensureNode g u h))

theorem hasEdge_add_edge (g : Graph) (u v a b : Node) :
    hasEdge (add_edge g u v) a b ↔ hasEdge g a b ∨ (a = u ∧ b = v) := by
  have hu : u ∈ dkeys (ensureNode (ensureNode g u) v) := by
    rw [mem_dkeys_ensureNode, mem_dkeys_ensureNode]
    tauto
  rw [add_edge, hasEdge_addSucc _ u v a b hu, hasEdge_ensureNode, hasEdge_ensureNode]

theorem number_of_edges_add_edge_mem (g : Graph) (u v : Node)
    (hE : hasEdge g u v) : number_of_edges (add_edge g u v) = number_of_edges g := by
  have hu : u ∈ dkeys (ensureNode (ensureNode g u) v) := by
    rw [mem_dkeys_ensureNode, mem_dkeys_ensureNode]
    tauto
  obtain ⟨s, hs⟩ := dget_eq_some_of_mem hu
  have hv : v ∈ s := by
    have h2 : hasEdge (ensureNode (ensureNode g u) v) u v := by
      rw [hasEdge_ensureNode, hasEdge_ensureNode]
      exact hE
    obtain ⟨s2, hs2, hin⟩ := h2
    exact Option.some.inj (hs2.symm.trans hs) ▸ hin
  rw [add_edge, number_of_edges_addSucc v hs, if_pos hv,
    number_of_edges_ensureNode, number_of_edges_ensureNode]

theorem number_of_edges_add_edge_notmem (g : Graph) (u v : Node)
    (hE : ¬hasEdge g u v) :
    number_of_edges (add_edge g u v) = number_of_edges g + 1 := by
  have hu : u ∈ dkeys (ensureNode (ensureNode g u) v) := by
    rw [mem_dkeys_ensureNode, mem_dkeys_ensureNode]
    tauto
  obtain ⟨s, hs⟩ := dget_eq_some_of_mem hu
  have hv : v ∉ s := by
    intro hin
    apply hE
    have h2 : hasEdge (ensureNode (ensureNode g u) v) u v := ⟨s, hs, hin⟩
    rwa [hasEdge_ensureNode, hasEdge_ensureNode] at h2
  rw [add_edge, number_of_edges_addSucc v hs, if_neg hv,
    number_of_edges_ensureNode, number_of_edges_ensureNode]

/-- Invariant of the `load_graph` fold of the networkx variant: starting
from a well-formed graph whose stored edges are exactly those of the
processed prefix `P` (with the stored count equal to the number of
distinct processed edges), after folding the remaining stream `E` the
well-formedness, node set and deduplicated edge count are as stated. -/
theorem load_graph_fold_inv :
    ∀ (E : List (Node × Node)) (g : Graph) (P : List (Node × Node)),
    NxWf g →
    (∀ a b, hasEdge g a b ↔ (a, b) ∈ P) →
    number_of_edges g = P.toFinset.card →
    NxWf (E.foldl (fun g e => add_edge g e.1 e.2) g) ∧
    (∀ x, x ∈ dkeys (E.foldl (fun g e => add_edge g e.1 e.2) g) ↔
      x ∈ dkeys g ∨ x ∈ E.map Prod.fst ∨ x ∈ E.map Prod.snd) ∧
    number_of_edges (E.foldl (fun g e => add_edge g e.1 e.2) g) =
      (P ++ E).toFinset.card := by
  intro E
  induction E with
  | nil =>
    intro g P hwf hiff hcount
    exact ⟨hwf, by simp, by simpa using hcount⟩
  | cons e E2 ih =>
    intro g P hwf hiff hcount
    obtain ⟨u, v⟩ := e
    have hwf2 := nxwf_add_edge g u v hwf
    have hiff2 : ∀ a b, hasEdge (add_edge g u v) a b ↔ (a, b) ∈ P ++ [(u, v)] := by
      intro a b
      rw [hasEdge_add_edge, hiff]
      simp [Prod.ext_iff]
    have hins : (P ++ [(u, v)]).toFinset = insert (u, v) P.toFinset := by
      ext y
      simp [or_comm]
    have hcount2 : number_of_edges (add_edge g u v) = (P ++ [(u, v)]).toFinset.card := by
      by_cases hmem : (u, v) ∈ P
      · rw [number_of_edges_add_edge_mem g u v ((hiff u v).mpr hmem), hcount, hins,
          Finset.insert_eq_self.mpr (by simpa using hmem)]
      · rw [number_of_edges_add_edge_notmem g u v (fun hE => hmem ((hiff u v).mp hE)),
          hcount, hins, Finset.card_insert_of_not_mem (by simpa using hmem)]
    obtain ⟨hw, hmemk, hcnt⟩ := ih (add_edge g u v) (P ++ [(u, v)]) hwf2 hiff2 hcount2
    refine ⟨hw, ?_, ?_⟩
    · intro x
      rw [List.foldl_cons]
      rw [hmemk x, mem_dkeys_add_edge]
      simp
      tauto
    · rw [List.foldl_cons, hcnt, List.append_assoc]
      rfl

/-- The node count printed by the networkx variant is the size of the
union of all identifiers seen as a source or as a target. -/
theorem nx_print_stats_nodes (edges : List (Node × Node)) :
    (print_stats (load_graph edges)).1 =
      ((edges.map Prod.fst).toFinset ∪ (edges.map Prod.snd).toFinset).card := by
  simp only [load_graph]
  obtain ⟨hwf, hmemk, -⟩ :=
    load_graph_fold_inv edges [] [] ⟨by simp [dkeys], by simp⟩
      (fun a b => by simp [hasEdge, dget]) (by simp [number_of_edges])
  have hset : (dkeys (edges.foldl (fun g e => add_edge g e.1 e.2) [])).toFinset =
      (edges.map Prod.fst).toFinset ∪ (edges.map Prod.snd).toFinset := by
    ext x
    rw [List.mem_toFinset, hmemk x]
    simp [dkeys]
  have hlen : (print_stats (edges.foldl (fun g e => add_edge g e.1 e.2) [])).1 =
      (dkeys (edges.foldl (fun g e => add_edge g e.1 e.2) [])).length := by
    simp [print_stats, number_of_nodes, dkeys]
  rw [hlen, ← List.toFinset_card_of_nodup hwf.1, hset]

/-- The edge count printed by the networkx variant is the number of
distinct (source, target) pairs — duplicates in the stream are dropped. -/
theorem nx_print_stats_edges (edges : List (Node × Node)) :
    (print_stats (load_graph edges)).2 = edges.toFinset.card := by
  simp only [load_graph]
  obtain ⟨-, -, hcnt⟩ :=
    load_graph_fold_inv edges [] [] ⟨by simp [dkeys], by simp⟩
      (fun a b => by simp [hasEdge, dget]) (by simp [number_of_edges])
  simpa using hcnt

end PageRank2

/-- The node set of an edge stream as the spec defines it: the union of
all identifiers seen as a source or as a target, counted without
duplicates. -/
def unionNodeCount (edges : List (Node × Node)) : ℕ :=
  ((edges.map Prod.fst).toFinset ∪ (edges.map Prod.snd).toFinset).card

/-- C6, counterexample: on the stream with the duplicated edge `A B`,
the plain variant prints node count 1 (its `len(graph)` counts distinct
sources only, missing the pure dangling target `B`), so it differs from
the size 2 of the union; and the networkx variant prints edge count 1
(its `DiGraph` deduplicates the repeated edge), so it differs from the
multiplicity count 2. -/
theorem C6_stats_counterexample :
    ¬((PageRank.print_stats (PageRank.load_graph_edges [("A", "B"), ("A", "B")])).1 =
        unionNodeCount [("A", "B"), ("A", "B")] ∧
      (PageRank2.print_stats (PageRank2.load_graph [("A", "B"), ("A", "B")])).2 =
        List.length [("A", "B"), ("A", "B")]) := by
  decide

/-- C6 (amended): for every graph built from an edge stream, the plain
variant's Stats reports node count equal to the number of distinct
identifiers appearing as a source and edge count equal to the number of
(source, target) pairs counted with multiplicity, while the networkx
variant reports node count equal to the size of the source/target union
and edge count equal to the number of distinct (source, target) pairs. -/
theorem C6_stats_amended (edges : List (Node × Node)) :
    (PageRank.print_stats (PageRank.load_graph_edges edges)).1 =
      ((edges.map Prod.fst).toFinset).card ∧
    (PageRank.print_stats (PageRank.load_graph_edges edges)).2 = edges.length ∧
    (PageRank2.print_stats (PageRank2.load_graph edges)).1 = unionNodeCount edges ∧
    (PageRank2.print_stats (PageRank2.load_graph edges)).2 = edges.toFinset.card :=
  ⟨PageRank.print_stats_nodes edges, PageRank.print_stats_edges edges,
    PageRank2.nx_print_stats_nodes edges, PageRank2.nx_print_stats_edges edges⟩

/-- C7, counterexample: the spec's node set is the union of sources and
targets, so the graph built from the single edge `A B` has node count 2;
yet `distribution_page_rank` of `page_rank.py` with zero steps returns
the mapping `{A: 1}` — the pure dangling target `B` is absent and `A`
carries `1/1`, not the uniform `1 / node_count = 1/2` over the node
set. -/
theorem C7_zero_steps_not_uniform_on_node_set :
    PageRank.distribution_page_rank (PageRank.load_graph_edges [("A", "B")]) 0 =
      some [("A", (1 : ℚ))] ∧
    unionNodeCount [("A", "B")] = 2 := by
  constructor
  · show some (PageRank.initProb (PageRank.load_graph_edges [("A", "B")])) = _
    norm_num [PageRank.initProb, PageRank.load_graph_edges, PageRank.insertEdge]
  · decide

/-- C7 (amended): on every non-empty graph, `distribution_page_rank` of
`page_rank.py` with zero steps returns the uniform distribution over the
graph's source keys only: every source key is mapped to exactly
`1 / len(graph)` (the number of source keys), and every other identifier
— in particular every pure dangling target of the spec's union node set —
is absent from the returned mapping. -/
theorem C7_zero_steps_uniform_on_source_keys (g : Graph) (h : g ≠ []) :
    ∃ d, PageRank.distribution_page_rank g 0 = some d ∧
      (∀ n ∈ dkeys g, dget n d = some (1 / (g.length : ℚ))) ∧
      (∀ n, n ∉ dkeys g → dget n d = none) :=
  ⟨PageRank.initProb g, rfl, fun _ hn => dget_map_const _ hn,
    fun n hn => dget_none_of_not_mem (fun hm => hn ((PageRank.dkeys_initProb g) ▸ hm))⟩

theorem C7_zero_steps_uniform_on_source_keys_witness :
    ∃ d, PageRank.distribution_page_rank [("A", ["A"])] 0 = some d ∧
      (∀ n ∈ dkeys ([("A", ["A"])] : Graph),
        dget n d = some (1 / ((List.length ([("A", ["A"])] : Graph)) : ℚ))) ∧
      (∀ n, n ∉ dkeys ([("A", ["A"])] : Graph) → dget n d = none) :=
  C7_zero_steps_uniform_on_source_keys _ (by decide)

namespace PageRank2

/-- Embedding of the inner loop `for target in graph[node]:
next_prob[target] += p` of `distribution_page_rank` in `page_rank_2.py`. -/
def addToTargets (p : ℚ) : List Node → Dict ℚ → Option (Dict ℚ)
  | [], next => some next
  | t :: ts, next =>
    match dincrQ next t p with
    | none => none
    | some next1 => addToTargets p ts next1

/-- Embedding of `for node in graph.nodes(): p = node_prob[node] /
len(graph[node]); ...` of `page_rank_2.py` — there is no guard on the
out-degree, so a node with no successors divides by zero; the
`ZeroDivisionError` is embedded as `none`. -/
def distLoop (np : Dict ℚ) : Graph → Dict ℚ → Option (Dict ℚ)
  | [], next => some next
  | (node, ts) :: rest, next =>
    match dget node np with
    | none => none
    | some v =>
      if ts.length = 0 then none
      else
        match addToTargets (v / (ts.length : ℚ)) ts next with
        | none => none
        | some next1 => distLoop np rest next1

/-- Embedding of `next_prob = {node: 0 for node in graph.nodes()}`. -/
def zeroDict (g : Graph) : Dict ℚ := g.map (fun e => (e.1, (0 : ℚ)))

/-- One iteration of the networkx distribution outer loop. -/
def distStep (g : Graph) (np : Dict ℚ) : Option (Dict ℚ) := distLoop np g (zeroDict g)

/-- Embedding of `node_prob = {node: 1 / nodes for node in
graph.nodes()}`. -/
def initProb (g : Graph) : Dict ℚ := g.map (fun e => (e.1, 1 / (g.length : ℚ)))

/-- Embedding of `for x in range(args.steps)` of `page_rank_2.py`. -/
def distIter (g : Graph) : ℕ → Dict ℚ → Option (Dict ℚ)
  | 0, np => some np
  | n + 1, np =>
    match distStep g np with
    | none => none
    | some np1 => distIter g n np1

/-- Embedding of `distribution_page_rank(graph, args)` of
`page_rank_2.py`; `none` models an uncaught `ZeroDivisionError`. -/
def distribution_page_rank (g : Graph) (steps : ℕ) : Option (Dict ℚ) :=
  distIter g steps (initProb g)

/-- One pass of the networkx distribution loop fails as soon as some
entry has no successors. -/
theorem distLoop_none_of_dangling (np : Dict ℚ) :
    ∀ (entries : Graph) (next : Dict ℚ),
    (∃ n, (n, ([] : List Node)) ∈ entries) →
    distLoop np entries next = none := by
  intro entries
  induction entries with
  | nil =>
    intro next h
    simp at h
  | cons e rest ih =>
    intro next h
    obtain ⟨node, ts⟩ := e
    rcases h with ⟨n, hn⟩
    rcases List.mem_cons.mp hn with he | he
    · have hts : ts = [] := (Prod.mk.injEq n [] node ts ▸ he).2.symm
      cases hd : dget node np with
      | none => simp [distLoop, hd]
      | some v => simp [distLoop, hd, hts]
    · cases hd : dget node np with
      | none => simp [distLoop, hd]
      | some v =>
        by_cases hl : ts.length = 0
        · simp [distLoop, hd, hl]
        · cases ha : addToTargets (v / (ts.length : ℚ)) ts next with
          | none => simp [distLoop, hd, hl, ha]
          | some next1 => simp [distLoop, hd, hl, ha, ih next1 ⟨n, he⟩]

end PageRank2

/-- C10: in the networkx variant, on every graph containing a node with
zero outgoing edges (which includes every pure dangling target, since
`add_edge` inserts targets into the node set) and any positive step
count, `distribution_page_rank` divides an unguarded node probability by
the node's zero out-degree, raises `ZeroDivisionError`, and returns no
result. -/
theorem C10_nx_distribution_zero_division (g : Graph)
    (hdang : ∃ n, (n, ([] : List Node)) ∈ g) (steps : ℕ) (hs : 1 ≤ steps) :
    PageRank2.distribution_page_rank g steps = none := by
  obtain ⟨m, rfl⟩ : ∃ m, steps = m + 1 := ⟨steps - 1, by omega⟩
  have h1 : PageRank2.distStep g (PageRank2.initProb g) = none :=
    PageRank2.distLoop_none_of_dangling (PageRank2.initProb g) g
      (PageRank2.zeroDict g) hdang
  simp [PageRank2.distribution_page_rank, PageRank2.distIter, h1]

theorem C10_nx_distribution_zero_division_witness :
    PageRank2.distribution_page_rank (PageRank2.load_graph [("A", "B")]) 1 = none :=
  C10_nx_distribution_zero_division _ ⟨"B", by decide⟩ 1 (by decide)
